import Mathlib

set_option maxHeartbeats 1000000

/-!
Verification model of the terminal-to-speech extraction and playback
pipeline of simple-claude-gui.

Text is modelled as List Char (a JS string viewed as a character
sequence).  The Terminal component's onPtyData handler (buffer
accumulation, tag extraction, classification, dedup, gating) and the
VoiceContext playback orchestrator (speakText / processQueue /
stopSpeaking) are embedded as executable functions, and the spec's
claims about them are proved or refuted below.
-/

namespace SCG

abbrev Txt := List Char

/-- Characters removed by the last replacement of stripAnsi: the JS class
of raw control bytes 0x00-0x1f together with 0x7f. -/
def isCtrl (c : Char) : Bool := c.toNat ≤ 31 || c.toNat == 127

/-- ASCII letter, as matched by the JS class a-zA-Z. -/
def isAsciiAlpha (c : Char) : Bool := ('a' ≤ c && c ≤ 'z') || ('A' ≤ c && c ≤ 'Z')

def isDigit09 (c : Char) : Bool := '0' ≤ c && c ≤ '9'

/-- Body characters of a CSI escape: digits and semicolons. -/
def isCsiBody (c : Char) : Bool := isDigit09 c || c == ';'

/-- ASCII whitespace as matched by the JS regex class backslash-s
(the exotic Unicode space code points play no role in this model). -/
def isJsWS (c : Char) : Bool :=
  c == ' ' || c == '\t' || c == '\n' || c == '\r' || c == '\x0b' || c == '\x0c'

/-- Boolean prefix test on character lists. -/
def lpre : Txt → Txt → Bool
  | [], _ => true
  | _ :: _, [] => false
  | a :: as, b :: bs => a == b && lpre as bs

/-- Index of the first occurrence of pat as a contiguous substring, if any:
the search performed by a global JS regex for a literal pattern, and by
String.prototype.includes. -/
def findSubstr (pat : Txt) : Txt → Option Nat
  | [] => if lpre pat [] then some 0 else none
  | c :: r => if lpre pat (c :: r) then some 0 else (findSubstr pat r).map (· + 1)

def containsSub (pat s : Txt) : Bool := (findSubstr pat s).isSome

theorem lpre_length {p s : Txt} (h : lpre p s = true) : p.length ≤ s.length := by
  induction p generalizing s with
  | nil => simp
  | cons a as ih =>
    cases s with
    | nil => simp [lpre] at h
    | cons b bs =>
      simp only [lpre, Bool.and_eq_true] at h
      simpa using Nat.succ_le_succ (ih h.2)

theorem lpre_append {p s : Txt} (t : Txt) (h : lpre p s = true) :
    lpre p (s ++ t) = true := by
  induction p generalizing s with
  | nil => rfl
  | cons a as ih =>
    cases s with
    | nil => simp [lpre] at h
    | cons b bs =>
      simp only [lpre, Bool.and_eq_true] at h
      simp only [List.cons_append, lpre, Bool.and_eq_true]
      exact ⟨h.1, ih h.2⟩

theorem lpre_append_eq {p s : Txt} (t : Txt) (h : p.length ≤ s.length) :
    lpre p (s ++ t) = lpre p s := by
  induction p generalizing s with
  | nil => rfl
  | cons a as ih =>
    cases s with
    | nil => simp at h
    | cons b bs =>
      simp only [List.cons_append, List.append_eq, lpre]
      rw [ih (by simpa using h)]

theorem findSubstr_le {pat s : Txt} {i : Nat} (h : findSubstr pat s = some i) :
    i + pat.length ≤ s.length := by
  induction s generalizing i with
  | nil =>
    unfold findSubstr at h
    split at h
    · next hp =>
      cases h
      simpa using lpre_length hp
    · cases h
  | cons c r ih =>
    unfold findSubstr at h
    split at h
    · next hp =>
      cases h
      simpa using lpre_length hp
    · next =>
      cases hm : findSubstr pat r with
      | none => rw [hm] at h; cases h
      | some j =>
        rw [hm] at h
        simp at h
        have := ih hm
        simp only [List.length_cons]
        omega

theorem findSubstr_nil_pat (s : Txt) : findSubstr [] s = some 0 := by
  cases s <;> simp [findSubstr, lpre]

theorem findSubstr_append {pat s : Txt} {i : Nat} (t : Txt)
    (h : findSubstr pat s = some i) : findSubstr pat (s ++ t) = some i := by
  induction s generalizing i with
  | nil =>
    unfold findSubstr at h
    split at h
    · next hp =>
      cases h
      have : pat = [] := by
        cases pat with
        | nil => rfl
        | cons a as => simp [lpre] at hp
      subst this
      simpa using findSubstr_nil_pat t
    · cases h
  | cons c r ih =>
    unfold findSubstr at h
    split at h
    · next hp =>
      cases h
      have : lpre pat ((c :: r) ++ t) = true := lpre_append t hp
      simp only [List.cons_append] at this ⊢
      simp [findSubstr, this]
    · next hp =>
      cases hm : findSubstr pat r with
      | none => rw [hm] at h; cases h
      | some j =>
        rw [hm] at h
        simp at h
        subst h
        have hlen : pat.length ≤ (c :: r).length := by
          have := findSubstr_le hm
          simp only [List.length_cons]
          omega
        have hcond : lpre pat ((c :: r) ++ t) = false := by
          rw [lpre_append_eq t hlen]
          simpa using hp
        simp only [List.cons_append] at hcond ⊢
        simp [findSubstr, hcond, ih hm]

theorem lpre_take {p s : Txt} (h : lpre p s = true) : s.take p.length = p := by
  induction p generalizing s with
  | nil => simp
  | cons a as ih =>
    cases s with
    | nil => simp [lpre] at h
    | cons b bs =>
      simp only [lpre, Bool.and_eq_true, beq_iff_eq] at h
      simp [h.1, ih h.2]

/-- List.drop distributes over append below the split point. -/
theorem drop_append_le {l₁ : Txt} (l₂ : Txt) {n : Nat} (h : n ≤ l₁.length) :
    (l₁ ++ l₂).drop n = l₁.drop n ++ l₂ := by
  induction l₁ generalizing n with
  | nil =>
    simp at h
    subst h
    simp
  | cons a as ih =>
    cases n with
    | zero => simp
    | succ m => simpa using ih (by simpa using h)

/-- List.take ignores the appended part below the split point. -/
theorem take_append_le {l₁ : Txt} (l₂ : Txt) {n : Nat} (h : n ≤ l₁.length) :
    (l₁ ++ l₂).take n = l₁.take n := by
  induction l₁ generalizing n with
  | nil =>
    simp at h
    subst h
    simp
  | cons a as ih =>
    cases n with
    | zero => simp
    | succ m => simpa using ih (by simpa using h)

/-- The delimiter open marker used by the producer. -/
def openTag : Txt := ['«', 't', 't', 's', '»']

/-- The delimiter close marker. -/
def closeTag : Txt := ['«', '/', 't', 't', 's', '»']

/-- The four-character open-marker text the buffer-clearing step searches
for: the source checks includes of «tts without the closing ». -/
def openPfx : Txt := ['«', 't', 't', 's']

/-- One step of the tag-extraction scan over the accumulated buffer: the
next complete open...close pair, as found by the non-greedy global regex;
returns the raw interior and the rest after the close marker. -/
def extractOne (s : Txt) : Option (Txt × Txt) :=
  match findSubstr openTag s with
  | none => none
  | some i =>
    let after := s.drop (i + openTag.length)
    match findSubstr closeTag after with
    | none => none
    | some j => some (after.take j, after.drop (j + closeTag.length))

def extractGo : Nat → Txt → List Txt × Txt
  | 0, s => ([], s)
  | f + 1, s =>
    match extractOne s with
    | none => ([], s)
    | some (c, r) =>
      let t := extractGo f r
      (c :: t.1, t.2)

/-- All complete delimited interiors of s in order, plus the remainder
after the last complete pair (all of s when there is no pair). -/
def extractAll (s : Txt) : List Txt × Txt := extractGo s.length s

theorem extractOne_shrink {s : Txt} {c r : Txt} (h : extractOne s = some (c, r)) :
    r.length + 11 ≤ s.length := by
  unfold extractOne at h
  cases ho : findSubstr openTag s with
  | none => rw [ho] at h; cases h
  | some i =>
    rw [ho] at h
    simp only at h
    cases hc : findSubstr closeTag (s.drop (i + openTag.length)) with
    | none => rw [hc] at h; cases h
    | some j =>
      rw [hc] at h
      simp only [Option.some.injEq, Prod.mk.injEq] at h
      have h1 := findSubstr_le ho
      have h2 := findSubstr_le hc
      have hr : r = (s.drop (i + openTag.length)).drop (j + closeTag.length) := h.2.symm
      have : openTag.length = 5 := rfl
      have : closeTag.length = 6 := rfl
      subst hr
      simp only [List.length_drop] at h2 ⊢
      simp only [openTag, closeTag, List.length_cons, List.length_nil] at h1 h2 ⊢
      omega

theorem extractOne_nil : extractOne [] = none := rfl

theorem extractOne_append {s : Txt} {c r : Txt} (t : Txt)
    (h : extractOne s = some (c, r)) :
    extractOne (s ++ t) = some (c, r ++ t) := by
  unfold extractOne at h ⊢
  cases ho : findSubstr openTag s with
  | none => rw [ho] at h; cases h
  | some i =>
    rw [ho] at h
    simp only at h
    cases hc : findSubstr closeTag (s.drop (i + openTag.length)) with
    | none => rw [hc] at h; cases h
    | some j =>
      rw [hc] at h
      simp only [Option.some.injEq, Prod.mk.injEq] at h
      have h1 := findSubstr_le ho
      have h2 := findSubstr_le hc
      rw [findSubstr_append t ho]
      simp only
      have hdrop : (s ++ t).drop (i + openTag.length) = s.drop (i + openTag.length) ++ t :=
        drop_append_le t (by omega)
      rw [hdrop, findSubstr_append t hc]
      simp only [Option.some.injEq, Prod.mk.injEq]
      constructor
      · rw [take_append_le t (by simp only [List.length_drop] at h2 ⊢; omega)]
        exact h.1
      · rw [drop_append_le t (by simp only [List.length_drop] at h2 ⊢; omega)]
        rw [h.2]

theorem extractGo_congr : ∀ f g : Nat, ∀ s : Txt, s.length ≤ f → s.length ≤ g →
    extractGo f s = extractGo g s := by
  intro f
  induction f with
  | zero =>
    intro g s hf _
    have : s = [] := List.length_eq_zero.mp (Nat.le_zero.mp hf)
    subst this
    cases g with
    | zero => rfl
    | succ g => simp [extractGo, extractOne_nil]
  | succ f ih =>
    intro g s hf hg
    cases g with
    | zero =>
      have : s = [] := List.length_eq_zero.mp (Nat.le_zero.mp hg)
      subst this
      simp [extractGo, extractOne_nil]
    | succ g =>
      simp only [extractGo]
      cases he : extractOne s with
      | none => rfl
      | some cr =>
        obtain ⟨c, r⟩ := cr
        have hs := extractOne_shrink he
        simp only
        rw [ih g r (by omega) (by omega)]

theorem extractAll_none {s : Txt} (h : extractOne s = none) : extractAll s = ([], s) := by
  unfold extractAll
  cases hl : s.length with
  | zero => rfl
  | succ n => simp [extractGo, h]

theorem extractAll_cons {s : Txt} {c r : Txt} (h : extractOne s = some (c, r)) :
    extractAll s = (c :: (extractAll r).1, (extractAll r).2) := by
  unfold extractAll
  have hs := extractOne_shrink h
  obtain ⟨n, hn⟩ : ∃ n, s.length = n + 1 := ⟨s.length - 1, by omega⟩
  rw [hn]
  simp only [extractGo, h]
  rw [extractGo_congr n r.length r (by omega) le_rfl]

/-- Extraction is a stream fold: extracting from a prefix and then from
the remainder plus more input gives exactly the extraction of the whole. -/
theorem extract_compose : ∀ n : Nat, ∀ p t : Txt, p.length ≤ n →
    extractAll (p ++ t)
      = ((extractAll p).1 ++ (extractAll ((extractAll p).2 ++ t)).1,
         (extractAll ((extractAll p).2 ++ t)).2) := by
  intro n
  induction n with
  | zero =>
    intro p t hp
    have : p = [] := List.length_eq_zero.mp (Nat.le_zero.mp hp)
    subst this
    simp [extractAll_none extractOne_nil]
  | succ n ih =>
    intro p t hp
    cases he : extractOne p with
    | none =>
      rw [extractAll_none he]
      simp
    | some cr =>
      obtain ⟨c, r⟩ := cr
      have hs := extractOne_shrink he
      have he2 : extractOne (p ++ t) = some (c, r ++ t) := extractOne_append t he
      rw [extractAll_cons he, extractAll_cons he2]
      rw [ih r t (by omega)]
      simp

theorem extractGo_count : ∀ f : Nat, ∀ s : Txt, 11 * (extractGo f s).1.length ≤ s.length := by
  intro f
  induction f with
  | zero => intro s; simp [extractGo]
  | succ f ih =>
    intro s
    simp only [extractGo]
    cases he : extractOne s with
    | none => simp
    | some cr =>
      obtain ⟨c, r⟩ := cr
      have hs := extractOne_shrink he
      have := ih r
      simp only [List.length_cons]
      omega

theorem extractAll_count (s : Txt) : 11 * (extractAll s).1.length ≤ s.length :=
  extractGo_count s.length s

theorem extractGo_rem_len : ∀ f : Nat, ∀ s : Txt, (extractGo f s).2.length ≤ s.length := by
  intro f
  induction f with
  | zero => intro s; simp [extractGo]
  | succ f ih =>
    intro s
    simp only [extractGo]
    cases he : extractOne s with
    | none => simp
    | some cr =>
      obtain ⟨c, r⟩ := cr
      have hs := extractOne_shrink he
      have := ih r
      simp only
      omega

theorem extractAll_rem_len (s : Txt) : (extractAll s).2.length ≤ s.length :=
  extractGo_rem_len s.length s

/-- The remainder left by extraction contains no further complete pair. -/
theorem extractAll_rem_none : ∀ n : Nat, ∀ s : Txt, s.length ≤ n →
    extractOne (extractAll s).2 = none := by
  intro n
  induction n with
  | zero =>
    intro s hs
    have : s = [] := List.length_eq_zero.mp (Nat.le_zero.mp hs)
    subst this
    rw [extractAll_none extractOne_nil]
    exact extractOne_nil
  | succ n ih =>
    intro s hs
    cases he : extractOne s with
    | none => rw [extractAll_none he]; exact he
    | some cr =>
      obtain ⟨c, r⟩ := cr
      have := extractOne_shrink he
      rw [extractAll_cons he]
      exact ih r (by omega)

/-- Generic left-to-right global regex removal: at each position, if step
recognizes a match starting there, drop it and continue after it (the JS
lastIndex behaviour); otherwise keep one character and rescan. -/
def scanPass (step : Txt → Option Txt) : Nat → Txt → Txt
  | 0, s => s
  | _ + 1, [] => []
  | f + 1, c :: r =>
    match step (c :: r) with
    | some r' => scanPass step f r'
    | none => c :: scanPass step f r

/-- Tail of a CSI escape after its two-character introducer: a run of
digits and semicolons followed by one ASCII letter (the greedy run and
the disjoint letter class make backtracking irrelevant). -/
def csiTail : Txt → Option Txt
  | [] => none
  | c :: r => if isCsiBody c then csiTail r else if isAsciiAlpha c then some r else none

/-- Matcher for the CSI regex of stripAnsi. -/
def csiStep : Txt → Option Txt
  | c1 :: c2 :: r => if c1 = '\x1b' ∧ c2 = '[' then csiTail r else none
  | _ => none

/-- Tail of an OSC sequence: everything up to and including the first BEL. -/
def oscTail : Txt → Option Txt
  | [] => none
  | c :: r => if c = '\x07' then some r else oscTail r

/-- Matcher for the OSC regex of stripAnsi. -/
def oscStep : Txt → Option Txt
  | c1 :: c2 :: r => if c1 = '\x1b' ∧ c2 = ']' then oscTail r else none
  | _ => none

/-- Matcher for the private-mode regex of stripAnsi (ESC bracket question
mark then a CSI body). -/
def privStep : Txt → Option Txt
  | c1 :: c2 :: c3 :: r =>
    if c1 = '\x1b' ∧ c2 = '[' ∧ c3 = '?' then csiTail r else none
  | _ => none

def strSeqIntro (c : Char) : Bool := c == 'P' || c == 'X' || c == '^' || c == '_'

/-- Tail of a string sequence: non-ESC characters up to an ESC that must
be followed by a backslash. -/
def strSeqTail : Txt → Option Txt
  | [] => none
  | c :: r =>
    if c = '\x1b' then
      match r with
      | '\\' :: r2 => some r2
      | _ => none
    else strSeqTail r

/-- Matcher for the string-sequence regex of stripAnsi. -/
def strSeqStep : Txt → Option Txt
  | c1 :: c2 :: r => if c1 = '\x1b' ∧ strSeqIntro c2 then strSeqTail r else none
  | _ => none

/-- The raw-control-byte class removal, the last replacement of stripAnsi. -/
def ctrlPass (s : Txt) : Txt := s.filter (fun c => !isCtrl c)

/-- Model of the source's stripAnsi: the four regex removals in source
order (CSI, OSC, private-mode, string sequences) and then the control
character class. -/
def stripAnsi (s : Txt) : Txt :=
  let a := scanPass csiStep s.length s
  let b := scanPass oscStep a.length a
  let c := scanPass privStep b.length b
  let d := scanPass strSeqStep c.length c
  ctrlPass d

/-- Text with no raw control bytes (in particular no ESC). -/
def ctrlFree (s : Txt) : Bool := s.all (fun c => !isCtrl c)

theorem scanPass_id (step : Txt → Option Txt)
    (hstep : ∀ c : Char, ∀ r : Txt, ¬ c = '\x1b' → step (c :: r) = none) :
    ∀ f : Nat, ∀ s : Txt, ctrlFree s = true → scanPass step f s = s := by
  intro f
  induction f with
  | zero => intro s _; rfl
  | succ f ih =>
    intro s h
    cases s with
    | nil => rfl
    | cons c r =>
      simp only [ctrlFree, List.all_cons, Bool.and_eq_true, Bool.not_eq_eq_eq_not,
        Bool.not_true] at h
      have hc : ¬ c = '\x1b' := by
        intro he
        subst he
        simp [isCtrl] at h
      simp only [scanPass, hstep c r hc]
      rw [ih r h.2]

theorem csiStep_eh (c : Char) (r : Txt) (h : ¬ c = '\x1b') : csiStep (c :: r) = none := by
  cases r with
  | nil => rfl
  | cons c2 r2 => simp [csiStep, h]

theorem oscStep_eh (c : Char) (r : Txt) (h : ¬ c = '\x1b') : oscStep (c :: r) = none := by
  cases r with
  | nil => rfl
  | cons c2 r2 => simp [oscStep, h]

theorem privStep_eh (c : Char) (r : Txt) (h : ¬ c = '\x1b') : privStep (c :: r) = none := by
  cases r with
  | nil => rfl
  | cons c2 r2 =>
    cases r2 with
    | nil => rfl
    | cons c3 r3 => simp [privStep, h]

theorem strSeqStep_eh (c : Char) (r : Txt) (h : ¬ c = '\x1b') :
    strSeqStep (c :: r) = none := by
  cases r with
  | nil => rfl
  | cons c2 r2 => simp [strSeqStep, h]

theorem ctrlPass_id {s : Txt} (h : ctrlFree s = true) : ctrlPass s = s := by
  induction s with
  | nil => rfl
  | cons c r ih =>
    simp only [ctrlFree, List.all_cons, Bool.and_eq_true] at h
    simp only [ctrlPass, List.filter_cons, h.1]
    simpa [ctrlPass] using ih h.2

/-- On control-free text every pass of stripAnsi is the identity. -/
theorem stripAnsi_id {s : Txt} (h : ctrlFree s = true) : stripAnsi s = s := by
  unfold stripAnsi
  simp only [scanPass_id csiStep csiStep_eh s.length s h,
    scanPass_id oscStep oscStep_eh s.length s h,
    scanPass_id privStep privStep_eh s.length s h,
    scanPass_id strSeqStep strSeqStep_eh s.length s h]
  exact ctrlPass_id h

/-- Leading-whitespace removal, the first half of JS String.trim. -/
def dropWS : Txt → Txt
  | [] => []
  | c :: r => if isJsWS c then dropWS r else c :: r

/-- Model of JS String.prototype.trim on ASCII whitespace. -/
def trimWS (s : Txt) : Txt := (dropWS ((dropWS s).reverse)).reverse

/-- The code-like character class of the looksLikeCode regex. -/
def isCodeChar (c : Char) : Bool :=
  c == '\x7b' || c == '\x7d' || c == '(' || c == ')' || c == '[' || c == ']' ||
  c == ';' || c == '=' || c == '\x60' || c == '$'

def headWS : Txt → Bool
  | [] => false
  | d :: _ => isJsWS d

/-- A token occurrence followed immediately by a whitespace character,
as matched by the regex alternatives function-backslash-s and friends. -/
def hasTokWS (tok : Txt) : Txt → Bool
  | [] => false
  | c :: r => (lpre tok (c :: r) && headWS ((c :: r).drop tok.length)) || hasTokWS tok r

/-- Anchored match: optional leading whitespace then the literal pat. -/
def startsWSThen (pat : Txt) (s : Txt) : Bool := lpre pat (s.dropWhile isJsWS)

/-- The looksLikeCode test applied to each extracted interior. -/
def looksLikeCode (content : Txt) : Bool :=
  content.any isCodeChar ||
  startsWSThen ['/', '/'] content ||
  startsWSThen ['#'] content ||
  hasTokWS "function".toList content ||
  hasTokWS "const".toList content ||
  hasTokWS "let".toList content ||
  hasTokWS "var".toList content

def firstAlpha : Txt → Bool
  | [] => false
  | c :: _ => isAsciiAlpha c

/-- The looksLikeProse test: long enough, starts with an ASCII letter,
and not code-like. -/
def looksLikeProse (content : Txt) : Bool :=
  decide (5 < content.length) && firstAlpha content && !looksLikeCode content

/-- Per-terminal TTS state: the carry-over buffer (ttsBufferRef), the
insertion-ordered spoken set (spokenContentRef, a JS Set viewed as its
insertion sequence) and the silent-mode flag (silentModeRef). -/
structure TermState where
  ttsBuffer : Txt
  spoken : List Txt
  silentMode : Bool
deriving Repr, DecidableEq

/-- Result of processing the matches of one chunk: the updated spoken
sequence, the segments newly accepted into it, and the speakText calls. -/
structure PCOut where
  spoken : List Txt
  accepted : List Txt
  calls : List Txt
deriving Repr, DecidableEq

/-- Body of the extraction while-loop, one complete match at a time:
classify with looksLikeProse, dedup against the spoken set (inserting on
first sight regardless of the gates), and gate the speakText call on
voice enabled, active tab and not silent. -/
def processContents (silent ve ia : Bool) : List Txt → List Txt → PCOut
  | spoken, [] => ⟨spoken, [], []⟩
  | spoken, c :: cs =>
    if looksLikeProse c && !(spoken.contains c) then
      let t := processContents silent ve ia (spoken ++ [c]) cs
      ⟨t.spoken, c :: t.accepted, (if ve && ia && !silent then [c] else []) ++ t.calls⟩
    else
      processContents silent ve ia spoken cs

/-- The spoken-set size cap: above 1000 entries, keep the last 500
(Array.from insertion order, slice of the last 500). -/
def trimSpoken (sp : List Txt) : List Txt :=
  if 1000 < sp.length then sp.drop (sp.length - 500) else sp

/-- The buffer-clearing step: drop the whole remainder when it does not
contain the open-marker text «tts. -/
def clearIfNoOpen (rest : Txt) : Txt := if containsSub openPfx rest then rest else []

/-- The buffer size cap: above 2000 characters, keep the last 2000. -/
def capBuffer (rest : Txt) : Txt :=
  if 2000 < rest.length then rest.drop (rest.length - 2000) else rest

/-- Result of one onPtyData invocation: the new state, the trimmed
interiors of the complete tags found this chunk, the segments newly
accepted into the spoken set, and the speakText calls issued. -/
structure StepOut where
  st : TermState
  extracted : List Txt
  accepted : List Txt
  calls : List Txt
deriving Repr, DecidableEq

/-- One onPtyData invocation of the Terminal component: strip ANSI from
the chunk, append to the carry-over buffer, extract every complete
open...close pair, run the classify/dedup/gate body on each interior
(trimmed), keep only the remainder past the last complete pair, then the
clearing step, the buffer cap and the spoken-set cap.  The xterm display
write of the chunk is pure presentation and is not modelled. -/
def onPtyData (ve ia : Bool) (st : TermState) (data : Txt) : StepOut :=
  let ex := extractAll (st.ttsBuffer ++ stripAnsi data)
  let contents := ex.1.map trimWS
  let pc := processContents st.silentMode ve ia st.spoken contents
  ⟨⟨capBuffer (clearIfNoOpen ex.2), trimSpoken pc.spoken, st.silentMode⟩,
   contents, pc.accepted, pc.calls⟩

/-- Cumulative result of feeding a chunk sequence to onPtyData. -/
structure RunOut where
  st : TermState
  accepted : List Txt
  calls : List Txt
deriving Repr, DecidableEq

def runChunks (ve ia : Bool) (st : TermState) : List Txt → RunOut
  | [] => ⟨st, [], []⟩
  | d :: ds =>
    let o := onPtyData ve ia st d
    let r := runChunks ve ia o.st ds
    ⟨r.st, o.accepted ++ r.accepted, o.calls ++ r.calls⟩

/-- The terminal.onData handler's effect on TTS state: the first user
input switches silent mode off. -/
def userInput (st : TermState) : TermState :=
  if st.silentMode then { st with silentMode := false } else st

/-- Fresh session TTS state, as set by the mount effect: silent mode on,
spoken set cleared, carry-over buffer empty. -/
def initState : TermState := ⟨[], [], true⟩

/-- JS Set.add: append only when not already present. -/
def setAdd (sp : List Txt) (c : Txt) : List Txt :=
  if sp.contains c then sp else sp ++ [c]

/-- Replay pre-population of the spoken set: per buffered chunk, strip
ANSI, extract the chunk-local complete tags, and record every trimmed
interior longer than 3 characters; nothing is ever spoken here. -/
def replayChunk (sp : List Txt) (chunk : Txt) : List Txt :=
  ((extractAll (stripAnsi chunk)).1.map trimWS).foldl
    (fun s c => if 3 < c.length then setAdd s c else s) sp

def replayChunks (sp : List Txt) (chunks : List Txt) : List Txt :=
  chunks.foldl replayChunk sp

def isNL (c : Char) : Bool := c == '\r' || c == '\n'

/-- Replacement of every maximal run of carriage returns and newlines by
one space (the regex newline-run replacement of speakText). -/
def squashNL : Bool → Txt → Txt
  | _, [] => []
  | inRun, c :: r =>
    if isNL c then (if inRun then squashNL true r else ' ' :: squashNL true r)
    else c :: squashNL false r

/-- Replacement of every maximal whitespace run by one space. -/
def squashWS : Bool → Txt → Txt
  | _, [] => []
  | inRun, c :: r =>
    if isJsWS c then (if inRun then squashWS true r else ' ' :: squashWS true r)
    else c :: squashWS false r

/-- The cleaning chain of speakText: remove CSI escapes, newline runs to
spaces, whitespace runs to single spaces, then trim. -/
def cleanText (t : Txt) : Txt :=
  trimWS (squashWS false (squashNL false (scanPass csiStep t.length t)))

/-- Suspension point of the processQueue while-loop: idle, awaiting the
synthesis IPC for a text, or awaiting the end of its audio playback. -/
inductive LoopSt where
  | idle : LoopSt
  | awaitSynth : Txt → LoopSt
  | playing : Txt → LoopSt
deriving Repr, DecidableEq

/-- Observable state of the VoiceContext orchestrator: speakQueueRef,
isProcessingRef, the isSpeaking flag, and the suspension point of the
most recent processQueue iteration (audioRef is non-null exactly in the
playing state). -/
structure Orch where
  queue : List Txt
  processing : Bool
  speaking : Bool
  loopSt : LoopSt
deriving Repr, DecidableEq

/-- External effects emitted by the orchestrator. -/
inductive Act where
  | synthCall : Txt → Act
  | playStart : Txt → Act
  | playEnd : Act
  | audioHalt : Act
  | synthKill : Act
deriving Repr, DecidableEq

/-- Events driving the orchestrator: a speakText call, resolution of the
pending synthesis IPC (true on success; false covers an error result and
a caught exception alike), resolution of the playback wait (onended,
onerror and a rejected play call all resolve it identically), and
stopSpeaking. -/
inductive Ev where
  | enqueue : Bool → Txt → Ev
  | synthRet : Bool → Ev
  | audioDone : Ev
  | stop : Ev
deriving Repr, DecidableEq

/-- Resumption of the processQueue while-loop after an item finishes:
re-check the queue condition, either shifting the next text and calling
synthesis or leaving the loop and resetting the processing flags. -/
def continueLoop (s : Orch) : Orch × List Act :=
  match s.queue with
  | [] => (⟨[], false, false, .idle⟩, [])
  | t :: rest => (⟨rest, s.processing, s.speaking, .awaitSynth t⟩, [.synthCall t])

/-- One event step of the orchestrator.  enqueue is speakText: the
enabled gate, the cleaning, the minimum length gate, the push, then
processQueue whose guard checks only isProcessingRef.  stopSpeaking
clears the queue, pauses and discards any live audio (abandoning that
iteration: a paused audio element never resolves the wait), kills the
synthesis process and resets both flags; a pending synthesis await is
not interrupted and resumes on its synthRet.  A synthRet resuming after
a stop is played when successful: the loop body checks only the result. -/
def orchStep (s : Orch) : Ev → Orch × List Act
  | .enqueue enabled t =>
    if !enabled then (s, [])
    else
      let c := cleanText t
      if c.length < 3 then (s, [])
      else
        let s1 : Orch := ⟨s.queue ++ [c], s.processing, s.speaking, s.loopSt⟩
        if s1.processing then (s1, [])
        else continueLoop ⟨s1.queue, true, true, s1.loopSt⟩
  | .synthRet ok =>
    match s.loopSt with
    | .awaitSynth t =>
      if ok then (⟨s.queue, s.processing, s.speaking, .playing t⟩, [.playStart t])
      else continueLoop s
    | _ => (s, [])
  | .audioDone =>
    match s.loopSt with
    | .playing _ =>
      let r := continueLoop ⟨s.queue, s.processing, s.speaking, .idle⟩
      (r.1, .playEnd :: r.2)
    | _ => (s, [])
  | .stop =>
    match s.loopSt with
    | .playing _ => (⟨[], false, false, .idle⟩, [.audioHalt, .synthKill])
    | ls => (⟨[], false, false, ls⟩, [.synthKill])

def runOrch : Orch → List Ev → Orch × List Act
  | s, [] => (s, [])
  | s, e :: es =>
    let r := orchStep s e
    let r2 := runOrch r.1 es
    (r2.1, r.2 ++ r2.2)

def initOrch : Orch := ⟨[], false, false, .idle⟩

def synthTexts : List Act → List Txt
  | [] => []
  | .synthCall t :: r => t :: synthTexts r
  | _ :: r => synthTexts r

def playTexts : List Act → List Txt
  | [] => []
  | .playStart t :: r => t :: playTexts r
  | _ :: r => playTexts r

/-- Texts a speakText event actually appends: voice enabled and the
cleaned text at least 3 characters. -/
def evAccepted : Ev → List Txt
  | .enqueue enabled t =>
    if !enabled then []
    else if (cleanText t).length < 3 then []
    else [cleanText t]
  | _ => []

def acceptedOf : List Ev → List Txt
  | [] => []
  | e :: es => evAccepted e ++ acceptedOf es

/-- Validity of an action trace as a non-overlapping playback sequence:
play starts and play ends alternate; returns the final playing flag. -/
def altRun : List Act → Bool → Option Bool
  | [], b => some b
  | .playStart _ :: r, b => if b then none else altRun r true
  | .playEnd :: r, b => if b then altRun r false else none
  | _ :: r, b => altRun r b

def isPlayingB : LoopSt → Bool
  | .playing _ => true
  | _ => false

def loopBusy : LoopSt → Bool
  | .idle => false
  | _ => true

theorem contains_eq_mem (sp : List Txt) (c : Txt) : sp.contains c = true ↔ c ∈ sp := by
  simp [List.contains]

theorem processContents_append (silent ve ia : Bool) (sp : List Txt) (l₁ l₂ : List Txt) :
    processContents silent ve ia sp (l₁ ++ l₂)
      = ⟨(processContents silent ve ia
            (processContents silent ve ia sp l₁).spoken l₂).spoken,
         (processContents silent ve ia sp l₁).accepted
           ++ (processContents silent ve ia
                 (processContents silent ve ia sp l₁).spoken l₂).accepted,
         (processContents silent ve ia sp l₁).calls
           ++ (processContents silent ve ia
                 (processContents silent ve ia sp l₁).spoken l₂).calls⟩ := by
  induction l₁ generalizing sp with
  | nil => simp [processContents]
  | cons c cs ih =>
    simp only [List.cons_append, processContents]
    split
    · simp [ih (sp ++ [c]), List.append_assoc]
    · exact ih sp

theorem processContents_flags (s v i s' v' i' : Bool) (sp : List Txt) (l : List Txt) :
    (processContents s v i sp l).spoken = (processContents s' v' i' sp l).spoken ∧
    (processContents s v i sp l).accepted = (processContents s' v' i' sp l).accepted := by
  induction l generalizing sp with
  | nil => exact ⟨rfl, rfl⟩
  | cons c cs ih =>
    simp only [processContents]
    split
    · exact ⟨(ih (sp ++ [c])).1, by simp [(ih (sp ++ [c])).2]⟩
    · exact ih sp

theorem processContents_spoken_len (s v i : Bool) (sp : List Txt) (l : List Txt) :
    (processContents s v i sp l).spoken.length ≤ sp.length + l.length := by
  induction l generalizing sp with
  | nil => simp [processContents]
  | cons c cs ih =>
    simp only [processContents]
    split
    · have := ih (sp ++ [c])
      simp only [List.length_append, List.length_cons, List.length_nil] at this ⊢
      omega
    · have := ih sp
      simp only [List.length_cons]
      omega

theorem processContents_calls_open (sp l : List Txt) :
    (processContents false true true sp l).calls
      = (processContents false true true sp l).accepted := by
  induction l generalizing sp with
  | nil => rfl
  | cons c cs ih =>
    simp only [processContents]
    split
    · simp [ih (sp ++ [c])]
    · exact ih sp

theorem processContents_calls_silent (v i : Bool) (sp l : List Txt) :
    (processContents true v i sp l).calls = [] := by
  induction l generalizing sp with
  | nil => rfl
  | cons c cs ih =>
    simp only [processContents]
    split
    · simp [ih (sp ++ [c])]
    · exact ih sp

theorem processContents_spoken_mono (s v i : Bool) (sp l : List Txt) :
    ∀ x ∈ sp, x ∈ (processContents s v i sp l).spoken := by
  induction l generalizing sp with
  | nil => intro x hx; exact hx
  | cons c cs ih =>
    intro x hx
    simp only [processContents]
    split
    · exact ih (sp ++ [c]) x (by simp [hx])
    · exact ih sp x hx

theorem processContents_accepted_mem (s v i : Bool) (sp l : List Txt) :
    ∀ x ∈ (processContents s v i sp l).accepted,
      x ∈ (processContents s v i sp l).spoken := by
  induction l generalizing sp with
  | nil => intro x hx; cases hx
  | cons c cs ih =>
    intro x hx
    simp only [processContents] at hx ⊢
    split at hx
    · next hcond =>
      simp only [hcond, if_pos]
      simp only [List.mem_cons] at hx
      rcases hx with rfl | hx
      · exact processContents_spoken_mono s v i (sp ++ [x]) cs x (by simp)
      · exact ih (sp ++ [c]) x hx
    · next hcond =>
      simp only [if_neg hcond]
      exact ih sp x hx

theorem trimSpoken_le1000 (sp : List Txt) : (trimSpoken sp).length ≤ 1000 := by
  unfold trimSpoken
  split
  · next h => simp only [List.length_drop]; omega
  · next h => omega

theorem onPtyData_silent (ve ia : Bool) (st : TermState) (d : Txt) :
    (onPtyData ve ia st d).st.silentMode = st.silentMode := rfl

theorem runChunks_calls_silent (ve ia : Bool) (st : TermState) (ds : List Txt)
    (h : st.silentMode = true) : (runChunks ve ia st ds).calls = [] := by
  induction ds generalizing st with
  | nil => rfl
  | cons d ds ih =>
    simp only [runChunks]
    have h1 : (onPtyData ve ia st d).calls = [] := by
      simp only [onPtyData, h]
      exact processContents_calls_silent ve ia _ _
    rw [h1, ih _ (by rw [onPtyData_silent]; exact h)]
    rfl

theorem runChunks_calls_open (st : TermState) (ds : List Txt)
    (h : st.silentMode = false) :
    (runChunks true true st ds).calls = (runChunks true true st ds).accepted := by
  induction ds generalizing st with
  | nil => rfl
  | cons d ds ih =>
    simp only [runChunks]
    have h1 : (onPtyData true true st d).calls = (onPtyData true true st d).accepted := by
      simp only [onPtyData, h]
      exact processContents_calls_open _ _
    rw [h1, ih _ (by rw [onPtyData_silent]; exact h)]

theorem setAdd_mem {sp : List Txt} {x : Txt} (c : Txt) (h : x ∈ sp) : x ∈ setAdd sp c := by
  unfold setAdd
  split
  · exact h
  · simp [h]

theorem setAdd_self (sp : List Txt) (c : Txt) : c ∈ setAdd sp c := by
  unfold setAdd
  split
  · next h => exact (contains_eq_mem sp c).mp h
  · simp

theorem replay_foldl_mem : ∀ l : List Txt, ∀ sp : List Txt, ∀ c : Txt,
    (c ∈ sp ∨ (c ∈ l ∧ 3 < c.length)) →
    c ∈ l.foldl (fun s x => if 3 < x.length then setAdd s x else s) sp := by
  intro l
  induction l with
  | nil =>
    intro sp c h
    rcases h with h | ⟨h, _⟩
    · exact h
    · cases h
  | cons x xs ih =>
    intro sp c h
    simp only [List.foldl_cons]
    rcases h with h | ⟨hm, hl⟩
    · refine ih _ c (Or.inl ?_)
      split
      · exact setAdd_mem x h
      · exact h
    · simp only [List.mem_cons] at hm
      rcases hm with rfl | hm
      · refine ih _ c (Or.inl ?_)
        rw [if_pos hl]
        exact setAdd_self sp c
      · exact ih _ c (Or.inr ⟨hm, hl⟩)

/-- C2: when the delimiter text is split as chunk 1 ending with an open
marker and part of the interior and chunk 2 carrying the rest and the close
marker, the Segmenter yields no segment on chunk 1 and exactly the one
trimmed segment Hello world. on chunk 2. -/
theorem c2_split_tag_segment :
    (onPtyData true true initState "...«tts»Hello wo".toList).extracted = [] ∧
    (onPtyData true true
        (onPtyData true true initState "...«tts»Hello wo".toList).st
        "rld.«/tts»...".toList).extracted = ["Hello world.".toList] := by
  constructor
  · decide
  · decide

/-- C4: a segment text that reaches the dedup check (classified as prose)
is dropped without effect when already present in the spoken set, and
otherwise appended to the spoken set and accepted; the insertion is the
same for every combination of the downstream gates. -/
theorem c4_dedup_ledger (silent ve ia : Bool) (sp : List Txt) (c : Txt)
    (hp : looksLikeProse c = true) :
    (sp.contains c = true →
        processContents silent ve ia sp [c] = ⟨sp, [], []⟩) ∧
    (sp.contains c = false →
        (processContents silent ve ia sp [c]).spoken = sp ++ [c] ∧
        (processContents silent ve ia sp [c]).accepted = [c]) ∧
    (∀ s' v' i' : Bool,
        (processContents s' v' i' sp [c]).spoken
          = (processContents silent ve ia sp [c]).spoken) := by
  refine ⟨?_, ?_, ?_⟩
  · intro hc
    have hm : c ∈ sp := (contains_eq_mem sp c).mp hc
    simp [processContents, hp, hc, hm]
  · intro hc
    have hm : c ∉ sp := by
      intro h
      rw [(contains_eq_mem sp c).mpr h] at hc
      exact Bool.noConfusion hc
    simp [processContents, hp, hc, hm]
  · intro s' v' i'
    exact (processContents_flags s' v' i' silent ve ia sp [c]).1

theorem c4_dedup_ledger_witness :
    ((([] : List Txt).contains "Hello there friend".toList = false) ∧
      (processContents true true true [] ["Hello there friend".toList]).spoken
        = [] ++ ["Hello there friend".toList] ∧
      (processContents true true true [] ["Hello there friend".toList]).accepted
        = ["Hello there friend".toList]) ∧
    (["Hello there friend".toList].contains "Hello there friend".toList = true ∧
      processContents true true true ["Hello there friend".toList]
          ["Hello there friend".toList]
        = ⟨["Hello there friend".toList], [], []⟩) :=
  ⟨⟨by decide,
    (c4_dedup_ledger true true true [] "Hello there friend".toList (by decide)).2.1
      (by decide)⟩,
   ⟨by decide,
    (c4_dedup_ledger true true true ["Hello there friend".toList]
        "Hello there friend".toList (by decide)).1 (by decide)⟩⟩

/-- C6: across any chunk stream the spoken set never exceeds 1000 entries
at a chunk boundary, and the eviction step keeps exactly the last 500
entries, in insertion order, whenever the cap is exceeded. -/
theorem c6_spoken_cap :
    (∀ ve ia : Bool, ∀ st : TermState, ∀ ds : List Txt,
        st.spoken.length ≤ 1000 → (runChunks ve ia st ds).st.spoken.length ≤ 1000) ∧
    (∀ sp : List Txt, 1000 < sp.length →
        trimSpoken sp = sp.drop (sp.length - 500) ∧
        (trimSpoken sp).length = 500 ∧
        sp.take (sp.length - 500) ++ trimSpoken sp = sp) := by
  constructor
  · intro ve ia st ds h
    induction ds generalizing st with
    | nil => exact h
    | cons d ds ih =>
      simp only [runChunks]
      exact ih _ (trimSpoken_le1000 _)
  · intro sp h
    refine ⟨if_pos h, ?_, ?_⟩
    · simp only [trimSpoken, if_pos h, List.length_drop]
      omega
    · simp only [trimSpoken, if_pos h]
      exact List.take_append_drop _ sp

theorem c6_spoken_cap_witness :
    ((runChunks true true initState
        ["«tts»Hello there my friend«/tts»".toList]).st.spoken.length ≤ 1000) ∧
    (1000 < (List.replicate 1001 ['a']).length ∧
      (trimSpoken (List.replicate 1001 ['a'])).length = 500) :=
  ⟨c6_spoken_cap.1 true true initState _ (by decide),
   ⟨by rw [List.length_replicate]; decide,
    (c6_spoken_cap.2 (List.replicate 1001 ['a'])
      (by rw [List.length_replicate]; decide)).2.1⟩⟩

/-- C7: the Classifier rejects any segment of length at most 5 (such as
ok), rejects any segment containing one of the code-punctuation
characters (so any segment containing function foo() with brace is
rejected), accepts only segments whose first character is an ASCII
letter, and a rejected segment passes through the pipeline body with no
effect. -/
theorem c7_classifier_policy :
    (∀ c : Txt, c.length ≤ 5 → looksLikeProse c = false) ∧
    (∀ c : Txt, c.any isCodeChar = true → looksLikeProse c = false) ∧
    (∀ c : Txt, looksLikeProse c = true → firstAlpha c = true) ∧
    looksLikeProse "ok".toList = false ∧
    (∀ pre suf : Txt,
        looksLikeProse (pre ++ "function foo() \x7b".toList ++ suf) = false) ∧
    (∀ silent ve ia : Bool, ∀ sp : List Txt, ∀ c : Txt, looksLikeProse c = false →
        processContents silent ve ia sp [c] = ⟨sp, [], []⟩) := by
  refine ⟨?_, ?_, ?_, by decide, ?_, ?_⟩
  · intro c h
    unfold looksLikeProse
    rw [decide_eq_false (by omega)]
    rfl
  · intro c h
    unfold looksLikeProse looksLikeCode
    rw [h]
    simp
  · intro c h
    unfold looksLikeProse at h
    simp only [Bool.and_eq_true] at h
    exact h.1.2
  · intro pre suf
    have hin : ("function foo() \x7b".toList).any isCodeChar = true := by decide
    have : (pre ++ "function foo() \x7b".toList ++ suf).any isCodeChar = true := by
      rw [List.any_append, List.any_append, hin]
      simp
    unfold looksLikeProse looksLikeCode
    rw [this]
    simp
  · intro silent ve ia sp c h
    simp [processContents, h]

theorem c7_classifier_policy_witness :
    looksLikeProse "ab".toList = false ∧
    looksLikeProse "see here; x".toList = false ∧
    looksLikeProse ([] ++ "function foo() \x7b".toList ++ " it is".toList) = false ∧
    processContents true true true [] ["ok".toList] = ⟨[], [], []⟩ :=
  ⟨c7_classifier_policy.1 "ab".toList (by decide),
   c7_classifier_policy.2.1 "see here; x".toList (by decide),
   c7_classifier_policy.2.2.2.2.1 [] " it is".toList,
   c7_classifier_policy.2.2.2.2.2 true true true [] "ok".toList (by decide)⟩

/-- C3: while silent mode is on, chunk processing issues no synthesis
call but records accepted segments all the same (the spoken set and the
accepted list do not depend on the gates, and every accepted segment is
recorded); replay pre-population records every extracted interior longer
than 3 characters and by construction never speaks; the first user input
turns silent mode off, further inputs and chunk processing leave it
unchanged; and once silent mode is off with voice enabled and the tab
active, the synthesis calls are exactly the accepted segments, so one
new qualifying segment yields exactly one call. -/
theorem c3_silent_mode :
    (∀ ve ia : Bool, ∀ st : TermState, ∀ ds : List Txt,
        st.silentMode = true → (runChunks ve ia st ds).calls = []) ∧
    (∀ s v i s' v' i' : Bool, ∀ sp l : List Txt,
        (processContents s v i sp l).spoken = (processContents s' v' i' sp l).spoken ∧
        (processContents s v i sp l).accepted = (processContents s' v' i' sp l).accepted) ∧
    (∀ s v i : Bool, ∀ sp l : List Txt,
        ∀ x ∈ (processContents s v i sp l).accepted,
          x ∈ (processContents s v i sp l).spoken) ∧
    (∀ sp : List Txt, ∀ chunk : Txt, ∀ c : Txt,
        c ∈ (extractAll (stripAnsi chunk)).1.map trimWS → 3 < c.length →
          c ∈ replayChunk sp chunk) ∧
    (∀ st : TermState, (userInput st).silentMode = false) ∧
    (∀ st : TermState, userInput (userInput st) = userInput st) ∧
    (∀ ve ia : Bool, ∀ st : TermState, ∀ d : Txt,
        (onPtyData ve ia st d).st.silentMode = st.silentMode) ∧
    (∀ st : TermState, ∀ ds : List Txt, st.silentMode = false →
        (runChunks true true st ds).calls = (runChunks true true st ds).accepted) := by
  refine ⟨runChunks_calls_silent, processContents_flags, processContents_accepted_mem,
    ?_, ?_, ?_, onPtyData_silent, runChunks_calls_open⟩
  · intro sp chunk c hc hl
    exact replay_foldl_mem _ sp c (Or.inr ⟨hc, hl⟩)
  · intro st
    unfold userInput
    split
    · rfl
    · next h => simpa using h
  · intro st
    unfold userInput
    split
    · rfl
    · rfl

theorem c3_silent_mode_witness :
    (runChunks true true initState ["«tts»Hello there my friend«/tts»".toList]).calls
        = [] ∧
    (userInput initState).silentMode = false ∧
    ((runChunks true true (userInput initState)
        ["«tts»Hello there my friend«/tts»".toList]).calls
      = (runChunks true true (userInput initState)
          ["«tts»Hello there my friend«/tts»".toList]).accepted) :=
  ⟨c3_silent_mode.1 true true initState _ rfl,
   c3_silent_mode.2.2.2.2.1 initState,
   c3_silent_mode.2.2.2.2.2.2.2 (userInput initState) _ rfl⟩

def joinL : List Txt → Txt
  | [] => []
  | c :: cs => c ++ joinL cs

theorem extract_compose' (p t : Txt) :
    extractAll (p ++ t)
      = ((extractAll p).1 ++ (extractAll ((extractAll p).2 ++ t)).1,
         (extractAll ((extractAll p).2 ++ t)).2) :=
  extract_compose p.length p t le_rfl

/-- Condition under which the buffer-clearing step is the identity on the
remainder: it is empty or still contains the open-marker text. -/
def goodCond (rest : Txt) : Bool := rest.isEmpty || containsSub openPfx rest

/-- Chunk boundaries at which the per-chunk clearing step loses nothing:
after every chunk, the pure extraction remainder is empty or still
contains the open-marker text «tts. -/
def goodBoundaries : Txt → List Txt → Bool
  | _, [] => true
  | rem, c :: cs =>
    goodCond (extractAll (rem ++ c)).2 && goodBoundaries (extractAll (rem ++ c)).2 cs

theorem containsSub_nil_openPfx : containsSub openPfx [] = false := rfl

theorem clear_of_good {rest : Txt} (h : goodCond rest = true) :
    clearIfNoOpen rest = rest := by
  unfold goodCond at h
  simp only [Bool.or_eq_true] at h
  rcases h with h | h
  · have : rest = [] := by
      cases rest with
      | nil => rfl
      | cons a r => simp [List.isEmpty] at h
    subst this
    rfl
  · simp [clearIfNoOpen, h]

theorem capBuffer_id {rest : Txt} (h : rest.length ≤ 2000) : capBuffer rest = rest := by
  unfold capBuffer
  rw [if_neg (by omega)]

theorem trimSpoken_id {sp : List Txt} (h : sp.length ≤ 1000) : trimSpoken sp = sp := by
  unfold trimSpoken
  rw [if_neg (by omega)]

theorem ctrlFree_append_left {a b : Txt} (h : ctrlFree (a ++ b) = true) :
    ctrlFree a = true := by
  simp only [ctrlFree, List.all_append, Bool.and_eq_true] at h
  exact h.1

theorem ctrlFree_join {chunks : List Txt} (h : ctrlFree (joinL chunks) = true) :
    ∀ c ∈ chunks, ctrlFree c = true := by
  induction chunks with
  | nil => intro c hc; cases hc
  | cons a as ih =>
    intro c hc
    simp only [joinL, ctrlFree, List.all_append, Bool.and_eq_true] at h
    simp only [List.mem_cons] at hc
    rcases hc with rfl | hc
    · exact h.1
    · exact ih h.2 c hc

/-- Invariant run of the chunked Segmenter pipeline: starting from a
buffer that is a pure extraction remainder, under control-free input,
bounded total length, bounded segment count and good boundaries, the run
over any chunk list equals the one-shot processing of the concatenation. -/
theorem runChunks_stream (b ve ia : Bool) :
    ∀ chunks : List Txt, ∀ rem : Txt, ∀ sp : List Txt,
    (∀ c ∈ chunks, ctrlFree c = true) →
    rem.length + (joinL chunks).length ≤ 2000 →
    sp.length + (extractAll (rem ++ joinL chunks)).1.length ≤ 1000 →
    goodBoundaries rem chunks = true →
    extractOne rem = none →
    runChunks ve ia ⟨rem, sp, b⟩ chunks
      = ⟨⟨(extractAll (rem ++ joinL chunks)).2,
          (processContents b ve ia sp
            ((extractAll (rem ++ joinL chunks)).1.map trimWS)).spoken, b⟩,
         (processContents b ve ia sp
            ((extractAll (rem ++ joinL chunks)).1.map trimWS)).accepted,
         (processContents b ve ia sp
            ((extractAll (rem ++ joinL chunks)).1.map trimWS)).calls⟩ := by
  intro chunks
  induction chunks with
  | nil =>
    intro rem sp h1 h2 h3 h4 h5
    simp only [joinL, List.append_nil, runChunks]
    rw [extractAll_none h5]
    simp [processContents]
  | cons c cs ih =>
    intro rem sp h1 h2 h3 h4 h5
    have hcf : ctrlFree c = true := h1 c (by simp)
    have hassoc : rem ++ joinL (c :: cs) = (rem ++ c) ++ joinL cs := by
      simp [joinL, List.append_assoc]
    have hsplit : extractAll ((rem ++ c) ++ joinL cs)
        = ((extractAll (rem ++ c)).1
             ++ (extractAll ((extractAll (rem ++ c)).2 ++ joinL cs)).1,
           (extractAll ((extractAll (rem ++ c)).2 ++ joinL cs)).2) :=
      extract_compose' (rem ++ c) (joinL cs)
    have hlen1 : (extractAll (rem ++ c)).2.length ≤ rem.length + c.length := by
      have := extractAll_rem_len (rem ++ c)
      simpa [List.length_append] using this
    have hjlen : (joinL (c :: cs)).length = c.length + (joinL cs).length := by
      simp [joinL, List.length_append]
    have hcount : (extractAll (rem ++ joinL (c :: cs))).1.length
        = (extractAll (rem ++ c)).1.length
          + (extractAll ((extractAll (rem ++ c)).2 ++ joinL cs)).1.length := by
      rw [hassoc, hsplit]
      simp [List.length_append]
    have hgood : goodCond (extractAll (rem ++ c)).2 = true ∧
        goodBoundaries (extractAll (rem ++ c)).2 cs = true := by
      have := h4
      simp only [goodBoundaries, Bool.and_eq_true] at this
      exact this
    -- the first step of the run
    have hstep : onPtyData ve ia ⟨rem, sp, b⟩ c
        = ⟨⟨(extractAll (rem ++ c)).2,
            (processContents b ve ia sp ((extractAll (rem ++ c)).1.map trimWS)).spoken,
            b⟩,
           (extractAll (rem ++ c)).1.map trimWS,
           (processContents b ve ia sp ((extractAll (rem ++ c)).1.map trimWS)).accepted,
           (processContents b ve ia sp ((extractAll (rem ++ c)).1.map trimWS)).calls⟩ := by
      unfold onPtyData
      simp only [stripAnsi_id hcf]
      rw [clear_of_good hgood.1]
      rw [capBuffer_id (by rw [hjlen] at h2; omega)]
      rw [trimSpoken_id ?hb]
      case hb =>
        have hb1 := processContents_spoken_len b ve ia sp
          ((extractAll (rem ++ c)).1.map trimWS)
        rw [List.length_map] at hb1
        rw [hcount] at h3
        omega
    have harm : extractOne ((extractAll (rem ++ c)).2) = none :=
      extractAll_rem_none (rem ++ c).length (rem ++ c) le_rfl
    have hih := ih (extractAll (rem ++ c)).2
      (processContents b ve ia sp ((extractAll (rem ++ c)).1.map trimWS)).spoken
      (fun x hx => h1 x (by simp [hx]))
      (by rw [hjlen] at h2; omega)
      (by
        have hb1 := processContents_spoken_len b ve ia sp
          ((extractAll (rem ++ c)).1.map trimWS)
        rw [List.length_map] at hb1
        rw [hcount] at h3
        omega)
      hgood.2
      harm
    -- assemble
    simp only [runChunks, hstep, hih]
    rw [hassoc, hsplit]
    simp only [List.map_append]
    rw [processContents_append]

theorem joinL_singleton (x : Txt) : joinL [x] = x := by simp [joinL]

theorem gb_final : ∀ chunks : List Txt, ∀ rem : Txt,
    goodBoundaries rem chunks = true → chunks ≠ [] →
    goodCond (extractAll (rem ++ joinL chunks)).2 = true := by
  intro chunks
  induction chunks with
  | nil => intro rem _ h; exact absurd rfl h
  | cons c cs ih =>
    intro rem h _
    simp only [goodBoundaries, Bool.and_eq_true] at h
    cases cs with
    | nil => simpa [joinL] using h.1
    | cons d ds =>
      have hfin := ih (extractAll (rem ++ c)).2 h.2 (by simp)
      have hassoc : rem ++ joinL (c :: d :: ds) = (rem ++ c) ++ joinL (d :: ds) := by
        simp [joinL, List.append_assoc]
      rw [hassoc, extract_compose']
      exact hfin

/-- C1 (amended): re-chunking a fixed control-free total text of at most
2000 characters yields the same accepted, non-duplicate segment sequence
as one-shot processing, provided every chunk boundary leaves a pending
remainder that is empty or still contains the open-marker text «tts; in
particular no boundary may split the first four characters of an open
marker, which the counterexample shows loses the segment. -/
theorem c1_chunk_invariance (b ve ia : Bool) (chunks : List Txt)
    (h1 : ctrlFree (joinL chunks) = true)
    (h2 : (joinL chunks).length ≤ 2000)
    (h4 : goodBoundaries [] chunks = true) :
    (runChunks ve ia ⟨[], [], b⟩ chunks).accepted
      = (runChunks ve ia ⟨[], [], b⟩ [joinL chunks]).accepted := by
  have hL := runChunks_stream b ve ia chunks [] []
    (ctrlFree_join h1)
    (by simpa using h2)
    (by
      have h := extractAll_count ([] ++ joinL chunks)
      simp only [List.nil_append] at h
      simp only [List.length_nil, List.nil_append]
      omega)
    h4 extractOne_nil
  cases chunks with
  | nil => rfl
  | cons c cs =>
    have hfin : goodCond (extractAll ([] ++ joinL (c :: cs))).2 = true :=
      gb_final (c :: cs) [] h4 (by simp)
    have hR := runChunks_stream b ve ia [joinL (c :: cs)] [] []
      (by
        intro x hx
        simp only [List.mem_singleton] at hx
        subst hx
        exact h1)
      (by rw [joinL_singleton]; simp only [List.length_nil]; omega)
      (by
        rw [joinL_singleton]
        have h := extractAll_count ([] ++ joinL (c :: cs))
        simp only [List.nil_append] at h
        simp only [List.length_nil, List.nil_append]
        omega)
      (by
        simp only [goodBoundaries, goodCond, joinL_singleton, Bool.and_eq_true]
        simp only [goodCond] at hfin
        exact ⟨hfin, trivial⟩)
      extractOne_nil
    rw [hL, hR]
    simp [joinL]

/-- C1 counterexample: one fixed total text, two chunkings, different
accepted sequences; the split «t then ts»... inside the open marker
makes the clearing step drop the pending buffer and the segment is lost,
while the one-chunk delivery accepts it. -/
theorem c1_chunk_invariance_cex :
    ("«t".toList ++ "ts»Hello there friend«/tts»".toList
        = "«tts»Hello there friend«/tts»".toList) ∧
    (runChunks true true initState ["«tts»Hello there friend«/tts»".toList]).accepted
      ≠ (runChunks true true initState
          ["«t".toList, "ts»Hello there friend«/tts»".toList]).accepted := by
  constructor
  · decide
  · decide

theorem c1_chunk_invariance_witness :
    (runChunks true true ⟨[], [], true⟩
        ["abc«tts»Hello wo".toList, "rld.«/tts»".toList]).accepted
      = (runChunks true true ⟨[], [], true⟩
          [joinL ["abc«tts»Hello wo".toList, "rld.«/tts»".toList]]).accepted :=
  c1_chunk_invariance true true true
    ["abc«tts»Hello wo".toList, "rld.«/tts»".toList]
    (by decide) (by decide) (by decide)

theorem synthTexts_append (a b : List Act) :
    synthTexts (a ++ b) = synthTexts a ++ synthTexts b := by
  induction a with
  | nil => rfl
  | cons x r ih => cases x <;> simp [synthTexts, ih]

theorem playTexts_append (a b : List Act) :
    playTexts (a ++ b) = playTexts a ++ playTexts b := by
  induction a with
  | nil => rfl
  | cons x r ih => cases x <;> simp [playTexts, ih]

theorem altRun_append (a : List Act) : ∀ b : List Act, ∀ x : Bool,
    altRun (a ++ b) x = (altRun a x).bind (altRun b) := by
  induction a with
  | nil => intro b x; simp [altRun]
  | cons y r ih =>
    intro b x
    cases y with
    | synthCall t => simpa [altRun] using ih b x
    | playStart t =>
      cases x with
      | false => simpa [altRun] using ih b true
      | true => simp [altRun]
    | playEnd =>
      cases x with
      | true => simpa [altRun] using ih b false
      | false => simp [altRun]
    | audioHalt => simpa [altRun] using ih b x
    | synthKill => simpa [altRun] using ih b x

/-- Relation between the loop suspension point, the texts sent to
synthesis so far and the texts whose playback started so far: plays are
a sublist of synthesis calls, the pending item is the last synthesis
call and is not yet played while awaiting synthesis, and is the last
play while playing. -/
def playRel : LoopSt → List Txt → List Txt → Prop
  | .idle, synths, plays => List.Sublist plays synths
  | .awaitSynth t, synths, plays =>
      ∃ pre, synths = pre ++ [t] ∧ List.Sublist plays pre
  | .playing t, synths, plays =>
      ∃ pre ps, synths = pre ++ [t] ∧ plays = ps ++ [t] ∧ List.Sublist ps pre

/-- Inductive invariant of the orchestrator over stop-free traces:
accepted texts are the synthesis calls followed by the queue, the
processing flag mirrors loop liveness, an idle loop means an empty
queue, plays relate to synthesis calls per playRel, and the action trace
is a valid non-overlapping playback alternation ending in the current
playing state. -/
def OrchInv (s : Orch) (acc : List Txt) (acts : List Act) : Prop :=
  acc = synthTexts acts ++ s.queue ∧
  s.processing = loopBusy s.loopSt ∧
  (s.loopSt = .idle → s.queue = []) ∧
  playRel s.loopSt (synthTexts acts) (playTexts acts) ∧
  altRun acts false = some (isPlayingB s.loopSt)

theorem orchInv_init : OrchInv initOrch [] [] := by
  refine ⟨rfl, rfl, fun _ => rfl, List.Sublist.refl [], rfl⟩

theorem orchInv_extend_nil {s : Orch} {acc : List Txt} {acts : List Act}
    (h : OrchInv s acc acts) : OrchInv s (acc ++ []) (acts ++ []) := by
  simpa using h

theorem orchStep_enqueue_disabled (s : Orch) (t : Txt) :
    orchStep s (.enqueue false t) = (s, []) := rfl

theorem evAccepted_disabled (t : Txt) : evAccepted (.enqueue false t) = [] := rfl

theorem orchStep_enqueue_short {t : Txt} (h : (cleanText t).length < 3) (s : Orch) :
    orchStep s (.enqueue true t) = (s, []) := by
  simp [orchStep, h]

theorem evAccepted_short {t : Txt} (h : (cleanText t).length < 3) :
    evAccepted (.enqueue true t) = [] := by
  simp [evAccepted, h]

theorem orchStep_enqueue_busy {t : Txt} (hl : ¬ (cleanText t).length < 3)
    {s : Orch} (hp : s.processing = true) :
    orchStep s (.enqueue true t)
      = (⟨s.queue ++ [cleanText t], s.processing, s.speaking, s.loopSt⟩, []) := by
  simp [orchStep, hl, hp]

theorem evAccepted_long {t : Txt} (hl : ¬ (cleanText t).length < 3) :
    evAccepted (.enqueue true t) = [cleanText t] := by
  simp [evAccepted, hl]

theorem orchStep_enqueue_start {t : Txt} (hl : ¬ (cleanText t).length < 3)
    {s : Orch} (hp : s.processing = false) (hq : s.queue = []) :
    orchStep s (.enqueue true t)
      = (⟨[], true, true, .awaitSynth (cleanText t)⟩, [.synthCall (cleanText t)]) := by
  simp [orchStep, hl, hp, hq, continueLoop]

theorem orchStep_synthRet_idle {s : Orch} (hls : s.loopSt = .idle) (ok : Bool) :
    orchStep s (.synthRet ok) = (s, []) := by
  simp [orchStep, hls]

theorem orchStep_synthRet_playing {s : Orch} {u : Txt} (hls : s.loopSt = .playing u)
    (ok : Bool) : orchStep s (.synthRet ok) = (s, []) := by
  simp [orchStep, hls]

theorem orchStep_synthRet_ok {s : Orch} {u : Txt} (hls : s.loopSt = .awaitSynth u) :
    orchStep s (.synthRet true)
      = (⟨s.queue, s.processing, s.speaking, .playing u⟩, [.playStart u]) := by
  simp [orchStep, hls]

theorem evAccepted_synthRet (ok : Bool) : evAccepted (.synthRet ok) = [] := rfl

theorem evAccepted_audioDone : evAccepted .audioDone = [] := rfl

theorem orchStep_synthRet_err_nil {s : Orch} {u : Txt}
    (hls : s.loopSt = .awaitSynth u) (hq : s.queue = []) :
    orchStep s (.synthRet false) = (⟨[], false, false, .idle⟩, []) := by
  simp [orchStep, hls, continueLoop, hq]

theorem orchStep_synthRet_err_cons {s : Orch} {u v : Txt} {rest : List Txt}
    (hls : s.loopSt = .awaitSynth u) (hq : s.queue = v :: rest) :
    orchStep s (.synthRet false)
      = (⟨rest, s.processing, s.speaking, .awaitSynth v⟩, [.synthCall v]) := by
  simp [orchStep, hls, continueLoop, hq]

theorem orchStep_audioDone_idle {s : Orch} (hls : s.loopSt = .idle) :
    orchStep s .audioDone = (s, []) := by
  simp [orchStep, hls]

theorem orchStep_audioDone_await {s : Orch} {u : Txt} (hls : s.loopSt = .awaitSynth u) :
    orchStep s .audioDone = (s, []) := by
  simp [orchStep, hls]

theorem orchStep_audioDone_nil {s : Orch} {u : Txt}
    (hls : s.loopSt = .playing u) (hq : s.queue = []) :
    orchStep s .audioDone = (⟨[], false, false, .idle⟩, [.playEnd]) := by
  simp [orchStep, hls, continueLoop, hq]

theorem orchStep_audioDone_cons {s : Orch} {u v : Txt} {rest : List Txt}
    (hls : s.loopSt = .playing u) (hq : s.queue = v :: rest) :
    orchStep s .audioDone
      = (⟨rest, s.processing, s.speaking, .awaitSynth v⟩,
         [.playEnd, .synthCall v]) := by
  simp [orchStep, hls, continueLoop, hq]

theorem orchStep_inv {s : Orch} {acc : List Txt} {acts : List Act} {e : Ev}
    (hns : e ≠ Ev.stop) (h : OrchInv s acc acts) :
    OrchInv (orchStep s e).1 (acc ++ evAccepted e) (acts ++ (orchStep s e).2) := by
  obtain ⟨h1, h2, h3, h4, h5⟩ := h
  cases e with
  | stop => exact absurd rfl hns
  | enqueue enabled t =>
    cases enabled with
    | false =>
      rw [orchStep_enqueue_disabled, evAccepted_disabled]
      exact orchInv_extend_nil ⟨h1, h2, h3, h4, h5⟩
    | true =>
      by_cases hlen : (cleanText t).length < 3
      · rw [orchStep_enqueue_short hlen, evAccepted_short hlen]
        exact orchInv_extend_nil ⟨h1, h2, h3, h4, h5⟩
      · cases hp : s.processing with
        | true =>
          rw [orchStep_enqueue_busy hlen hp, evAccepted_long hlen]
          refine ⟨?_, h2, ?_, ?_, ?_⟩
          · simp only [List.append_nil]
            rw [h1, List.append_assoc]
          · intro hidle
            rw [hidle, hp] at h2
            simp [loopBusy] at h2
          · simpa using h4
          · simpa using h5
        | false =>
          have hidle : s.loopSt = .idle := by
            cases hls : s.loopSt with
            | idle => rfl
            | awaitSynth u => rw [hls, hp] at h2; simp [loopBusy] at h2
            | playing u => rw [hls, hp] at h2; simp [loopBusy] at h2
          have hq : s.queue = [] := h3 hidle
          rw [orchStep_enqueue_start hlen hp hq, evAccepted_long hlen]
          refine ⟨?_, by simp [loopBusy], ?_, ?_, ?_⟩
          · rw [synthTexts_append, h1, hq]
            simp [synthTexts]
          · intro hcon
            exact absurd hcon (by simp)
          · rw [synthTexts_append, playTexts_append]
            simp only [synthTexts, playTexts, List.append_nil]
            refine ⟨synthTexts acts, rfl, ?_⟩
            rw [hidle] at h4
            exact h4
          · rw [altRun_append, h5, hidle]
            simp [altRun, isPlayingB]
  | synthRet ok =>
    cases hls : s.loopSt with
    | idle =>
      rw [orchStep_synthRet_idle hls ok]
      exact orchInv_extend_nil ⟨h1, h2, h3, h4, h5⟩
    | playing u =>
      rw [orchStep_synthRet_playing hls ok]
      exact orchInv_extend_nil ⟨h1, h2, h3, h4, h5⟩
    | awaitSynth u =>
      rw [hls] at h2 h4 h5
      obtain ⟨pre, hpre, hsub⟩ := h4
      cases ok with
      | true =>
        rw [orchStep_synthRet_ok hls, evAccepted_synthRet]
        refine ⟨?_, by simpa [loopBusy] using h2, ?_, ?_, ?_⟩
        · rw [synthTexts_append]
          simpa [synthTexts] using h1
        · intro hcon
          exact absurd hcon (by simp)
        · rw [synthTexts_append, playTexts_append]
          simp only [synthTexts, playTexts, List.append_nil]
          exact ⟨pre, playTexts acts, hpre, rfl, hsub⟩
        · rw [altRun_append, h5]
          simp [altRun, isPlayingB]
      | false =>
        cases hq : s.queue with
        | nil =>
          rw [orchStep_synthRet_err_nil hls hq, evAccepted_synthRet]
          refine ⟨?_, rfl, fun _ => rfl, ?_, ?_⟩
          · rw [h1, hq]
            simp
          · simp only [playRel, synthTexts_append, playTexts_append,
              synthTexts, playTexts, List.append_nil]
            exact hsub.trans (by rw [hpre]; exact List.sublist_append_left pre [u])
          · rw [altRun_append, h5]
            simp [altRun, isPlayingB]
        | cons v rest =>
          rw [orchStep_synthRet_err_cons hls hq, evAccepted_synthRet]
          refine ⟨?_, by simpa [loopBusy] using h2, ?_, ?_, ?_⟩
          · rw [synthTexts_append, h1, hq]
            simp [synthTexts, List.append_assoc]
          · intro hcon
            exact absurd hcon (by simp)
          · rw [synthTexts_append, playTexts_append]
            simp only [synthTexts, playTexts, List.append_nil]
            refine ⟨synthTexts acts, rfl, ?_⟩
            exact hsub.trans (by rw [hpre]; exact List.sublist_append_left pre [u])
          · rw [altRun_append, h5]
            simp [altRun, isPlayingB]
  | audioDone =>
    cases hls : s.loopSt with
    | idle =>
      rw [orchStep_audioDone_idle hls]
      exact orchInv_extend_nil ⟨h1, h2, h3, h4, h5⟩
    | awaitSynth u =>
      rw [orchStep_audioDone_await hls]
      exact orchInv_extend_nil ⟨h1, h2, h3, h4, h5⟩
    | playing u =>
      rw [hls] at h2 h4 h5
      obtain ⟨pre, ps, hpre, hps, hsub⟩ := h4
      cases hq : s.queue with
      | nil =>
        rw [orchStep_audioDone_nil hls hq, evAccepted_audioDone]
        refine ⟨?_, rfl, fun _ => rfl, ?_, ?_⟩
        · rw [h1, hq]
          simp [synthTexts_append, synthTexts]
        · simp only [playRel, synthTexts_append, playTexts_append,
            synthTexts, playTexts, List.append_nil]
          rw [hpre, hps]
          exact hsub.append_right [u]
        · rw [altRun_append, h5]
          simp [altRun, isPlayingB]
      | cons v rest =>
        rw [orchStep_audioDone_cons hls hq, evAccepted_audioDone]
        refine ⟨?_, by simpa [loopBusy] using h2, ?_, ?_, ?_⟩
        · rw [synthTexts_append, h1, hq]
          simp [synthTexts, List.append_assoc]
        · intro hcon
          exact absurd hcon (by simp)
        · rw [synthTexts_append, playTexts_append]
          simp only [synthTexts, playTexts, List.append_nil]
          refine ⟨synthTexts acts, rfl, ?_⟩
          rw [hpre, hps]
          exact hsub.append_right [u]
        · rw [altRun_append, h5]
          simp [altRun, isPlayingB]

theorem runOrch_inv {s : Orch} {acc : List Txt} {acts : List Act} :
    ∀ evs : List Ev, (∀ e ∈ evs, e ≠ Ev.stop) → OrchInv s acc acts →
    OrchInv (runOrch s evs).1 (acc ++ acceptedOf evs) (acts ++ (runOrch s evs).2) := by
  intro evs
  induction evs generalizing s acc acts with
  | nil =>
    intro _ h
    simpa [runOrch, acceptedOf] using h
  | cons e es ih =>
    intro hns h
    have h' := orchStep_inv (hns e (by simp)) h
    have ih' := ih (fun x hx => hns x (by simp [hx])) h'
    simp only [runOrch, acceptedOf]
    rw [← List.append_assoc, ← List.append_assoc]
    exact ih'

theorem playRel_sublist {ls : LoopSt} {synths plays : List Txt}
    (h : playRel ls synths plays) : List.Sublist plays synths := by
  cases ls with
  | idle => exact h
  | awaitSynth t =>
    obtain ⟨pre, hpre, hsub⟩ := h
    rw [hpre]
    exact hsub.trans (List.sublist_append_left pre [t])
  | playing t =>
    obtain ⟨pre, ps, hpre, hps, hsub⟩ := h
    rw [hpre, hps]
    exact hsub.append_right [t]

/-- The push performed by speakText before it triggers processQueue:
gate on voice enabled, clean, gate on minimum length, then append. -/
def speakTextPush (enabled : Bool) (queue : List Txt) (t : Txt) : List Txt :=
  if !enabled then queue
  else
    let c := cleanText t
    if c.length < 3 then queue else queue ++ [c]

theorem dropWS_eq_drop : ∀ m : Txt, ∃ n : Nat, dropWS m = m.drop n := by
  intro m
  induction m with
  | nil => exact ⟨0, rfl⟩
  | cons c r ih =>
    by_cases hc : isJsWS c = true
    · obtain ⟨n, hn⟩ := ih
      exact ⟨n + 1, by simp [dropWS, hc, hn]⟩
    · exact ⟨0, by simp [dropWS, hc]⟩

theorem headWS_dropWS : ∀ l : Txt, headWS (dropWS l) = false := by
  intro l
  induction l with
  | nil => rfl
  | cons c r ih =>
    by_cases hc : isJsWS c = true
    · simpa [dropWS, hc] using ih
    · simp only [dropWS, hc, if_neg]
      simp only [headWS]
      simpa using hc

theorem headWS_take (l : Txt) (k : Nat) (h : headWS l = false) :
    headWS (l.take k) = false := by
  cases l with
  | nil => simp [headWS]
  | cons c r =>
    cases k with
    | zero => rfl
    | succ m => simpa [headWS] using h

theorem headWS_trimWS (l : Txt) : headWS (trimWS l) = false := by
  unfold trimWS
  obtain ⟨n, hn⟩ := dropWS_eq_drop ((dropWS l).reverse)
  rw [hn, List.reverse_drop, List.reverse_reverse]
  exact headWS_take _ _ (headWS_dropWS l)

theorem lastWS_trimWS (l : Txt) : headWS (trimWS l).reverse = false := by
  unfold trimWS
  rw [List.reverse_reverse]
  exact headWS_dropWS _

theorem dropWS_subset : ∀ l : Txt, ∀ c ∈ dropWS l, c ∈ l := by
  intro l
  induction l with
  | nil => intro c hc; cases hc
  | cons a r ih =>
    intro c hc
    by_cases ha : isJsWS a = true
    · simp only [dropWS, ha, if_pos] at hc
      exact List.mem_cons_of_mem a (ih c hc)
    · simp only [dropWS, ha] at hc
      simpa using hc

theorem trimWS_subset : ∀ l : Txt, ∀ c ∈ trimWS l, c ∈ l := by
  intro l c hc
  unfold trimWS at hc
  rw [List.mem_reverse] at hc
  have h1 := dropWS_subset _ c hc
  rw [List.mem_reverse] at h1
  exact dropWS_subset _ c h1

theorem squashWS_mem : ∀ b : Bool, ∀ l : Txt, ∀ c ∈ squashWS b l,
    c = ' ' ∨ isJsWS c = false := by
  intro b l
  induction l generalizing b with
  | nil => intro c hc; cases hc
  | cons a r ih =>
    intro c hc
    by_cases ha : isJsWS a = true
    · cases b with
      | true =>
        simp only [squashWS, ha, if_pos] at hc
        exact ih true c hc
      | false =>
        simp only [squashWS, ha, if_pos] at hc
        rcases List.mem_cons.mp hc with rfl | hc
        · exact Or.inl rfl
        · exact ih true c hc
    · simp only [squashWS, ha] at hc
      rcases List.mem_cons.mp hc with rfl | hc
      · exact Or.inr (by simpa using ha)
      · exact ih false c hc

theorem isNL_isJsWS {c : Char} (h : isNL c = true) : isJsWS c = true := by
  simp only [isNL, Bool.or_eq_true, beq_iff_eq] at h
  rcases h with rfl | rfl <;> decide

theorem cleanText_no_newline (t : Txt) : ∀ c ∈ cleanText t, isNL c = false := by
  intro c hc
  unfold cleanText at hc
  have h1 := trimWS_subset _ c hc
  rcases squashWS_mem false _ c h1 with rfl | hws
  · rfl
  · cases hnl : isNL c with
    | false => rfl
    | true => rw [isNL_isJsWS hnl] at hws; cases hws

/-- C10: the speakText filter: with voice disabled or a cleaned text
shorter than 3 characters the queue is left unchanged and nothing
happens; otherwise the push appends exactly the cleaned text to the
tail of the queue (when the orchestrator is already processing, the
post-call queue is exactly that push; when idle, processQueue
immediately shifts it to synthesize), and the cleaned text never
contains a carriage return or newline and is trimmed at both ends. -/
theorem c10_speak_text_filter :
    (∀ queue : List Txt, ∀ t : Txt, speakTextPush false queue t = queue) ∧
    (∀ queue : List Txt, ∀ t : Txt, (cleanText t).length < 3 →
        speakTextPush true queue t = queue) ∧
    (∀ queue : List Txt, ∀ t : Txt, ¬ (cleanText t).length < 3 →
        speakTextPush true queue t = queue ++ [cleanText t]) ∧
    (∀ s : Orch, ∀ t : Txt, orchStep s (.enqueue false t) = (s, [])) ∧
    (∀ s : Orch, ∀ t : Txt, (cleanText t).length < 3 →
        orchStep s (.enqueue true t) = (s, [])) ∧
    (∀ s : Orch, ∀ t : Txt, s.processing = true →
        (orchStep s (.enqueue true t)).1.queue = speakTextPush true s.queue t ∧
        (orchStep s (.enqueue true t)).2 = []) ∧
    (∀ t : Txt, ∀ c ∈ cleanText t, isNL c = false) ∧
    (∀ t : Txt, headWS (cleanText t) = false ∧ headWS (cleanText t).reverse = false) := by
  refine ⟨fun q t => rfl, ?_, ?_, fun s t => rfl, ?_, ?_, cleanText_no_newline,
    fun t => ⟨headWS_trimWS _, lastWS_trimWS _⟩⟩
  · intro q t h
    simp [speakTextPush, h]
  · intro q t h
    simp [speakTextPush, h]
  · intro s t h
    exact orchStep_enqueue_short h s
  · intro s t hp
    by_cases hlen : (cleanText t).length < 3
    · rw [orchStep_enqueue_short hlen]
      simp [speakTextPush, hlen]
    · rw [orchStep_enqueue_busy hlen hp]
      simp [speakTextPush, hlen]

theorem c10_speak_text_filter_witness :
    speakTextPush true ["existing item".toList] "  Hi\r\n there \x1b[31m friend  ".toList
        = ["existing item".toList] ++ ["Hi there friend".toList] ∧
    speakTextPush true [] "no".toList = [] ∧
    speakTextPush false [] "a perfectly fine sentence".toList = [] := by
  refine ⟨?_, ?_, ?_⟩
  · have h := c10_speak_text_filter.2.2.1 ["existing item".toList]
      "  Hi\r\n there \x1b[31m friend  ".toList (by decide)
    rw [h]
    decide
  · exact c10_speak_text_filter.2.1 [] "no".toList (by decide)
  · exact c10_speak_text_filter.1 [] "a perfectly fine sentence".toList

/-- C8: over every stop-free event trace from the initial orchestrator
state, the accepted enqueue texts are exactly the synthesis calls
followed by the still-queued tail, in order (strict FIFO, no
reordering); every playback start is of a synthesized text and in
synthesis order (sublist); playback starts and ends alternate (one at a
time, no overlap); and an enqueue arriving while the processing guard
is set only appends the cleaned text to the queue, emits no action and
leaves the loop point, flags and the rest of the state unchanged. -/
theorem c8_fifo_single_loop :
    (∀ evs : List Ev, (∀ e ∈ evs, e ≠ Ev.stop) →
        acceptedOf evs
          = synthTexts (runOrch initOrch evs).2 ++ (runOrch initOrch evs).1.queue ∧
        List.Sublist (playTexts (runOrch initOrch evs).2)
          (synthTexts (runOrch initOrch evs).2) ∧
        (altRun (runOrch initOrch evs).2 false).isSome = true) ∧
    (∀ s : Orch, ∀ t : Txt, s.processing = true →
        orchStep s (.enqueue true t)
          = (⟨speakTextPush true s.queue t, s.processing, s.speaking, s.loopSt⟩, [])) := by
  constructor
  · intro evs hns
    have h := runOrch_inv evs hns orchInv_init
    obtain ⟨h1, _, _, h4, h5⟩ := h
    refine ⟨by simpa using h1, playRel_sublist h4, ?_⟩
    rw [List.nil_append] at h5
    rw [h5]
    rfl
  · intro s t hp
    by_cases hlen : (cleanText t).length < 3
    · rw [orchStep_enqueue_short hlen]
      obtain ⟨q, p, spk, ls⟩ := s
      simp only at hp
      subst hp
      simp [speakTextPush, hlen]
    · rw [orchStep_enqueue_busy hlen hp]
      simp [speakTextPush, hlen]

theorem c8_fifo_single_loop_witness :
    acceptedOf
        [Ev.enqueue true "first message here".toList,
         Ev.enqueue true "second message here".toList,
         Ev.synthRet true, Ev.audioDone, Ev.synthRet true, Ev.audioDone]
      = synthTexts (runOrch initOrch
          [Ev.enqueue true "first message here".toList,
           Ev.enqueue true "second message here".toList,
           Ev.synthRet true, Ev.audioDone, Ev.synthRet true, Ev.audioDone]).2
        ++ (runOrch initOrch
          [Ev.enqueue true "first message here".toList,
           Ev.enqueue true "second message here".toList,
           Ev.synthRet true, Ev.audioDone, Ev.synthRet true, Ev.audioDone]).1.queue :=
  (c8_fifo_single_loop.1
    [Ev.enqueue true "first message here".toList,
     Ev.enqueue true "second message here".toList,
     Ev.synthRet true, Ev.audioDone, Ev.synthRet true, Ev.audioDone]
    (by decide)).1

/-- C9: failures are absorbed and the loop advances: on a synthesis
failure or a playback end or error, the next queued item is shifted and
synthesized immediately; and over any stop-free trace that ends with
the loop idle, the synthesis calls are exactly all accepted texts, so
every item enqueued after a failing one was still processed. -/
theorem c9_failure_continues :
    (∀ evs : List Ev, (∀ e ∈ evs, e ≠ Ev.stop) →
        (runOrch initOrch evs).1.loopSt = .idle →
        synthTexts (runOrch initOrch evs).2 = acceptedOf evs) ∧
    (∀ s : Orch, ∀ u v : Txt, ∀ rest : List Txt,
        s.loopSt = .awaitSynth u → s.queue = v :: rest →
        orchStep s (.synthRet false)
          = (⟨rest, s.processing, s.speaking, .awaitSynth v⟩, [.synthCall v])) ∧
    (∀ s : Orch, ∀ u v : Txt, ∀ rest : List Txt,
        s.loopSt = .playing u → s.queue = v :: rest →
        orchStep s .audioDone
          = (⟨rest, s.processing, s.speaking, .awaitSynth v⟩,
             [.playEnd, .synthCall v])) := by
  refine ⟨?_, ?_, ?_⟩
  · intro evs hns hidle
    have h := runOrch_inv evs hns orchInv_init
    obtain ⟨h1, _, h3, _, _⟩ := h
    simp only [List.nil_append] at h1
    rw [h1, h3 hidle, List.append_nil]
  · intro s u v rest hls hq
    exact orchStep_synthRet_err_cons hls hq
  · intro s u v rest hls hq
    exact orchStep_audioDone_cons hls hq

theorem c9_failure_continues_witness :
    synthTexts (runOrch initOrch
        [Ev.enqueue true "first message here".toList,
         Ev.enqueue true "second message here".toList,
         Ev.synthRet false, Ev.synthRet true, Ev.audioDone]).2
      = acceptedOf
        [Ev.enqueue true "first message here".toList,
         Ev.enqueue true "second message here".toList,
         Ev.synthRet false, Ev.synthRet true, Ev.audioDone] :=
  c9_failure_continues.1
    [Ev.enqueue true "first message here".toList,
     Ev.enqueue true "second message here".toList,
     Ev.synthRet false, Ev.synthRet true, Ev.audioDone]
    (by decide) (by decide)

/-- C5 (amended): stopSpeaking from any state empties the queue, resets
the processing and speaking flags (processing returns to Idle), pauses
and discards the audio when one is playing, and is idempotent on the
state; after a mid-playback stop a qualifying enqueue starts a fresh
processing cycle from Idle; but the result of a synthesis call in
flight at the moment of the stop is NOT discarded upon return: the loop
body checks only the result, so a success arriving after the stop
starts its playback (original claim refuted by c5_stop_cex). -/
theorem c5_stop_semantics :
    (∀ s : Orch, (orchStep s .stop).1.queue = [] ∧
        (orchStep s .stop).1.processing = false ∧
        (orchStep s .stop).1.speaking = false) ∧
    (∀ s : Orch, ∀ u : Txt, s.loopSt = .playing u →
        orchStep s .stop = (⟨[], false, false, .idle⟩, [.audioHalt, .synthKill])) ∧
    (∀ s : Orch, (orchStep (orchStep s .stop).1 .stop).1 = (orchStep s .stop).1) ∧
    (∀ s : Orch, ∀ u t : Txt, s.loopSt = .playing u →
        ¬ (cleanText t).length < 3 →
        orchStep (orchStep s .stop).1 (.enqueue true t)
          = (⟨[], true, true, .awaitSynth (cleanText t)⟩,
             [.synthCall (cleanText t)])) ∧
    (∀ s : Orch, ∀ u : Txt, s.loopSt = .awaitSynth u →
        orchStep (orchStep s .stop).1 (.synthRet true)
          = (⟨[], false, false, .playing u⟩, [.playStart u])) := by
  refine ⟨?_, ?_, ?_, ?_, ?_⟩
  · intro s
    cases hls : s.loopSt <;> simp [orchStep, hls]
  · intro s u hls
    simp [orchStep, hls]
  · intro s
    cases hls : s.loopSt <;> simp [orchStep, hls]
  · intro s u t hls hlen
    have h1 : orchStep s .stop = (⟨[], false, false, .idle⟩, [.audioHalt, .synthKill]) := by
      simp [orchStep, hls]
    rw [h1]
    exact orchStep_enqueue_start hlen rfl rfl
  · intro s u hls
    have h1 : (orchStep s .stop).1 = ⟨[], false, false, .awaitSynth u⟩ := by
      simp [orchStep, hls]
    rw [h1]
    exact orchStep_synthRet_ok rfl

/-- C5 counterexample: in the concrete trace enqueue, stop, successful
synthesis return, the synthesis result that was in flight at the moment
of stop is played after the stop instead of being discarded, even
though the stop had already emptied the queue and reset processing. -/
theorem c5_stop_cex :
    playTexts (runOrch initOrch
        [Ev.enqueue true "The build finished successfully".toList, Ev.stop,
         Ev.synthRet true]).2
      = ["The build finished successfully".toList] ∧
    (runOrch initOrch
        [Ev.enqueue true "The build finished successfully".toList, Ev.stop]).1.queue
      = [] ∧
    (runOrch initOrch
        [Ev.enqueue true "The build finished successfully".toList, Ev.stop]).1.processing
      = false := by
  refine ⟨by decide, by decide, by decide⟩

theorem c5_stop_semantics_witness :
    orchStep (⟨["queued item".toList], true, true,
        .playing "now playing".toList⟩ : Orch) .stop
      = (⟨[], false, false, .idle⟩, [.audioHalt, .synthKill]) ∧
    orchStep (orchStep (⟨[], true, true,
        .awaitSynth "pending text".toList⟩ : Orch) .stop).1 (.synthRet true)
      = (⟨[], false, false, .playing "pending text".toList⟩,
         [.playStart "pending text".toList]) :=
  ⟨c5_stop_semantics.2.1 _ "now playing".toList rfl,
   c5_stop_semantics.2.2.2.2 _ "pending text".toList rfl⟩

end SCG










